import Mathlib

/-!
Verification development for the text-matching core of the Resume-Analyzer
repository (`streamlit_app.py`, `utils/nlp.py`).

The Python code is shallowly embedded: strings are Lean `String`s (lists of
`Char`), Python floats are idealized as real numbers `ℝ`, Python `round(x, 2)`
is modelled as exact round-half-even to hundredths, and the regex scan
`re.findall(r"\b[a-zA-Z\+\#0-9\-]+\b", text)` is implemented as an explicit
scanner over the character list (with `\w` modelled by its ASCII fragment
`[a-zA-Z0-9_]`, which is exact for all ASCII inputs).

Source functions embedded (names kept):
  `normalize_word`, `tokenize`, `STOPWORDS`       — streamlit_app.py 67-174
  `extract_top_terms`, the `matched_simple` / `missing_simple` /
  `jd_freq` part of `categorize_and_compare`      — streamlit_app.py 228-280
  `simple_ats_checks`                             — streamlit_app.py 189-206
  `compute_similarity_score` (the in-repository
  term-frequency cosine; the optional sklearn
  TF-IDF branch is an external library)           — streamlit_app.py 302-333
-/

/-- Characters matched by the token regex character class `[a-zA-Z\+\#0-9\-]`. -/
def tokenChar (c : Char) : Bool :=
  (('a' ≤ c && c ≤ 'z') || ('A' ≤ c && c ≤ 'Z') || ('0' ≤ c && c ≤ '9')
    || c == '+' || c == '#' || c == '-')

/-- Word characters for the regex word-boundary `\b` (Python `\w`, ASCII fragment). -/
def wordChar (c : Char) : Bool :=
  (('a' ≤ c && c ≤ 'z') || ('A' ≤ c && c ≤ 'Z') || ('0' ≤ c && c ≤ '9') || c == '_')

/-- Lower-case letters and digits: the class `[a-z0-9]` used by
`normalize_word`'s end-stripping regex. -/
def stemAlnum (c : Char) : Bool :=
  (('a' ≤ c && c ≤ 'z') || ('0' ≤ c && c ≤ '9'))

/-- The upper-to-lower case table for ASCII letters. -/
def upperLower : List (Char × Char) :=
  [('A', 'a'), ('B', 'b'), ('C', 'c'), ('D', 'd'), ('E', 'e'), ('F', 'f'),
   ('G', 'g'), ('H', 'h'), ('I', 'i'), ('J', 'j'), ('K', 'k'), ('L', 'l'),
   ('M', 'm'), ('N', 'n'), ('O', 'o'), ('P', 'p'), ('Q', 'q'), ('R', 'r'),
   ('S', 's'), ('T', 't'), ('U', 'u'), ('V', 'v'), ('W', 'w'), ('X', 'x'),
   ('Y', 'y'), ('Z', 'z')]

/-- ASCII lower-casing, the fragment of Python `str.lower` relevant to the
token alphabet: map `A`-`Z` through the case table, leave the rest alone. -/
def pyLower (c : Char) : Char :=
  ((upperLower.find? (fun p => p.1 = c)).map Prod.snd).getD c

/-- The whitespace characters recognized by Python `str.strip()` / `str.split()`. -/
def pySpace (c : Char) : Bool :=
  c ∈ ([' ', '\t', '\n', '\r', Char.ofNat 0x0b, Char.ofNat 0x0c,
    Char.ofNat 0x1c, Char.ofNat 0x1d, Char.ofNat 0x1e, Char.ofNat 0x1f,
    Char.ofNat 0x85, Char.ofNat 0xa0, Char.ofNat 0x1680,
    Char.ofNat 0x2000, Char.ofNat 0x2001, Char.ofNat 0x2002, Char.ofNat 0x2003,
    Char.ofNat 0x2004, Char.ofNat 0x2005, Char.ofNat 0x2006, Char.ofNat 0x2007,
    Char.ofNat 0x2008, Char.ofNat 0x2009, Char.ofNat 0x200a,
    Char.ofNat 0x2028, Char.ofNat 0x2029, Char.ofNat 0x202f,
    Char.ofNat 0x205f, Char.ofNat 0x3000] : List Char)

/-- Python `str.strip()`: remove leading and trailing whitespace. -/
def pyStrip (s : String) : String :=
  String.mk (((s.data.dropWhile pySpace).reverse.dropWhile pySpace).reverse)

/-- A word boundary `\b` sits at the current position iff exactly one of the
character to the left (`prev`) and the character to the right (head of `rest`)
is a word character (out-of-string counts as non-word). -/
def boundaryAt (prev : Option Char) (rest : List Char) : Bool :=
  ((prev.map wordChar).getD false) != (((rest.head?).map wordChar).getD false)

/-- Whether the regex match of `\b C+ \b` starting at the head of `run` may end
after `j` characters (`1 ≤ j ≤ run.length`): there must be a word boundary at
that end position.  `next` is the first character after the maximal `C`-run. -/
def cutOK (run : List Char) (next : Option Char) (j : Nat) : Bool :=
  (((run.get? (j - 1)).map wordChar).getD false)
    != ((((if j < run.length then run.get? j else next)).map wordChar).getD false)

/-- Largest `j ∈ [1, bound]` with `cutOK run next j` (the greedy `C+` with
backtracking to satisfy the trailing `\b`). -/
def largestCutAux (run : List Char) (next : Option Char) : Nat → Option Nat
  | 0 => none
  | j + 1 => if cutOK run next (j + 1) then some (j + 1) else largestCutAux run next j

def largestCut (run : List Char) (next : Option Char) : Option Nat :=
  largestCutAux run next run.length

/-- The scan loop of `re.findall(r"\b[a-zA-Z\+\#0-9\-]+\b", ·)`: at each
position (characterized by the previous character `prev` and the remaining
characters), try to match; on success emit the token and resume after it,
otherwise advance one character.  `fuel` only forces termination; every step
consumes at least one character, so `fuel = length` is always enough. -/
def scanAux : Nat → Option Char → List Char → List (List Char)
  | 0, _, _ => []
  | _ + 1, _, [] => []
  | fuel + 1, prev, c :: cs =>
    if tokenChar c && boundaryAt prev (c :: cs) then
      let run := (c :: cs).takeWhile tokenChar
      let after := (c :: cs).dropWhile tokenChar
      match largestCut run after.head? with
      | some j =>
          run.take j :: scanAux fuel ((run.take j).getLast?) (run.drop j ++ after)
      | none => scanAux fuel (some c) cs
    else
      scanAux fuel (some c) cs

/-- `TOKEN_RE.findall(text)` for `TOKEN_RE = re.compile(r"\b[a-zA-Z\+\#0-9\-]+\b")`. -/
def findall (s : String) : List String :=
  (scanAux s.data.length none s.data).map String.mk

/-- Strip leading and trailing characters outside `[a-z0-9]`:
`re.sub(r'^[^a-z0-9]+|[^a-z0-9]+$', '', w)`. -/
def stripEnds (l : List Char) : List Char :=
  ((l.dropWhile (fun c => !stemAlnum c)).reverse.dropWhile (fun c => !stemAlnum c)).reverse

/-- The suffix list tried, in order, by `normalize_word`:
`('ings','ing','ed','es','s')`. -/
def SUFFIXES : List (List Char) :=
  [['i', 'n', 'g', 's'], ['i', 'n', 'g'], ['e', 'd'], ['e', 's'], ['s']]

/-- The suffix-stripping loop of `normalize_word`: return `w` with the first
suffix removed for which both `w.endswith(suf)` and `len(w) - len(suf) >= 2`
hold; if no suffix qualifies, return `w` unchanged. -/
def stripLoop : List (List Char) → List Char → List Char
  | [], w => w
  | suf :: rest, w =>
    if suf.isSuffixOf w && decide (2 ≤ w.length - suf.length) then
      w.take (w.length - suf.length)
    else
      stripLoop rest w

/-- `normalize_word` (streamlit_app.py 158-166): lowercase, strip non-alnum
ends, then apply the light-stemming loop. -/
def normalize_word (w : String) : String :=
  String.mk (stripLoop SUFFIXES (stripEnds (w.data.map pyLower)))

/-- The word after lower-casing and end-stripping but before suffix stripping. -/
def preNorm (w : String) : List Char :=
  stripEnds (w.data.map pyLower)

/-- Apostrophe character, written via its code point. -/
def apoS : String := String.mk [Char.ofNat 39]

/-- Helper building the contracted stop words (base + apostrophe + tail). -/
def apw (a b : String) : String := a ++ apoS ++ b

/-- `STOPWORDS` (streamlit_app.py 67-76). -/
def STOPWORDS : List String :=
  ["a", "about", "above", "after", "again", "against", "all", "am", "an", "and",
   "any", "are", apw "aren" "t", "as", "at", "be", "because", "been", "before",
   "being", "below", "between", "both", "but", "by", "could", apw "couldn" "t",
   "did", apw "didn" "t", "do", "does", apw "doesn" "t", "doing", apw "don" "t",
   "down", "during", "each", "few", "for", "from", "further", "had",
   apw "hadn" "t", "has", apw "hasn" "t", "have", apw "haven" "t", "having",
   "he", apw "he" "d", apw "he" "ll", apw "he" "s", "her", "here",
   apw "here" "s", "hers", "herself", "him", "himself", "his", "how",
   apw "how" "s", "i", apw "i" "d", apw "i" "ll", apw "i" "m", apw "i" "ve",
   "if", "in", "into", "is", apw "isn" "t", "it", apw "it" "s", "its",
   "itself", apw "let" "s", "me", "more", "most", apw "mustn" "t", "my",
   "myself", "no", "nor", "not", "of", "off", "on", "once", "only", "or",
   "other", "ought", "our", "ours", "ourselves", "out", "over", "own", "same",
   apw "shan" "t", "she", apw "she" "d", apw "she" "ll", apw "she" "s",
   "should", apw "shouldn" "t", "so", "some", "such", "than", "that",
   apw "that" "s", "the", "their", "theirs", "them", "themselves", "then",
   "there", apw "there" "s", "these", "they", apw "they" "d", apw "they" "ll",
   apw "they" "re", apw "they" "ve", "this", "those", "through", "to", "too",
   "under", "until", "up", "very", "was", apw "wasn" "t", "we", apw "we" "d",
   apw "we" "ll", apw "we" "re", apw "we" "ve", "were", apw "weren" "t",
   "what", apw "what" "s", "when", apw "when" "s", "where", apw "where" "s",
   "which", "while", "who", apw "who" "s", "whom", "why", apw "why" "s",
   "with", apw "won" "t", "would", apw "wouldn" "t", "you", apw "you" "d",
   apw "you" "ll", apw "you" "re", apw "you" "ve", "your", "yours",
   "yourself", "yourselves", "s", "t"]

/-- `tokenize` (streamlit_app.py 168-174): regex scan, per-token
normalization, then the stopword / length filter. -/
def tokenize (text : String) : List String :=
  if text = "" then []
  else
    (((findall text).filter (fun t => t ≠ "")).map normalize_word).filter
      (fun t => t ≠ "" && !STOPWORDS.contains t && decide (2 ≤ t.length))

/-- Python `" ".join(tokens)`. -/
def join_space (ts : List String) : String :=
  String.mk (List.intercalate [' '] (ts.map String.data))

/-- The distinct elements of `l` in order of first occurrence: the key order of
a Python `dict` / `collections.Counter` filled from `l`. -/
def firstOccs : List String → List String
  | [] => []
  | t :: ts => t :: (firstOccs ts).filter (fun u => u ≠ t)

/-- `collections.Counter(l)` as an association list: keys in first-insertion
order, each mapped to its multiplicity in `l`. -/
def counterItems (l : List String) : List (String × Nat) :=
  (firstOccs l).map (fun k => (k, l.count k))

/-- Index of the first occurrence of `a` in a list (length of the list if
absent); used to express "first-seen order". -/
def firstIdx (a : String) : List String → Nat
  | [] => 0
  | b :: l => if a = b then 0 else 1 + firstIdx a l

/-- Stable insertion for descending-count order: the new element goes after
every element with a strictly greater count and before ties, which (elements
being inserted in first-seen order) is exactly the tie behaviour of Python's
stable `sorted(items, key=count, reverse=True)` used by
`Counter.most_common`. -/
def insertCD (x : String × Nat) : List (String × Nat) → List (String × Nat)
  | [] => [x]
  | y :: ys => if x.2 < y.2 then y :: insertCD x ys else x :: y :: ys

/-- Stable sort by descending count (`Counter.most_common`'s order). -/
def sortCD : List (String × Nat) → List (String × Nat)
  | [] => []
  | x :: xs => insertCD x (sortCD xs)

/-- `Counter(l).most_common(n)`. -/
def most_common (l : List String) (n : Nat) : List (String × Nat) :=
  (sortCD (counterItems l)).take n

/-- `extract_top_terms` (streamlit_app.py 228-234), first component: the
`top_n` most frequent tokens of `text`, most frequent first. -/
def extract_top_terms (text : String) (top_n : Nat) : List String :=
  (most_common (tokenize text) top_n).map Prod.fst

/-- `jd_freq` as returned by `extract_top_terms` / `categorize_and_compare`:
the frequency of a token in the job-description token list. -/
def jd_freq (jd : String) (t : String) : Nat := (tokenize jd).count t

/-- `matched_simple` of `categorize_and_compare` (streamlit_app.py 267-280):
top JD terms present in the resume's token counter (the source instantiates
`top_n = 150`; it is kept as a parameter, as in `extract_top_terms`). -/
def matched_simple (resume jd : String) (top_n : Nat) : List String :=
  (extract_top_terms jd top_n).filter (fun t => (tokenize resume).contains t)

/-- `missing_simple` of `categorize_and_compare` (streamlit_app.py 267-280):
top JD terms absent from the resume's token counter. -/
def missing_simple (resume jd : String) (top_n : Nat) : List String :=
  (extract_top_terms jd top_n).filter (fun t => !(tokenize resume).contains t)

/-- Substring test (Python `sub in s`). -/
def pyContains (s sub : String) : Bool := decide (sub.data <:+: s.data)

/-- Number of words of Python `len(s.split())`: maximal runs of
non-whitespace characters. -/
def pyWordCount (l : List Char) : Nat :=
  (l.foldl
    (fun (st : Nat × Bool) c =>
      if pySpace c then (st.1, false)
      else (st.1 + (if st.2 then 0 else 1), true))
    (0, false)).1

/-- Warning strings of `simple_ats_checks` (streamlit_app.py 189-206). -/
def msg_columns : String :=
  "Possible columns or table-like formatting — convert to a simple vertical layout."

def msg_images : String :=
  "Images detected — remove images for ATS-friendly resume."

def msg_bullets : String :=
  "Unusual bullet characters detected — use simple hyphens or standard bullets."

def msg_short : String :=
  "Resume looks short — aim for ~400–1000 words depending on experience."

/-- Trigger of the columns/tables check: a tab anywhere or a run of four or
more spaces (`"\t" in resume_text or re.search(r' {4,}', resume_text)`). -/
def checkColumns (s : String) : Bool :=
  pyContains s "\t" || pyContains s "    "

/-- Trigger of the images check:
`"<img" in resume_text.lower() or "image:" in resume_text.lower()`. -/
def checkImages (s : String) : Bool :=
  pyContains (String.mk (s.data.map pyLower)) "<img"
    || pyContains (String.mk (s.data.map pyLower)) "image:"

/-- Trigger of the unusual-bullets check: `re.search(r"[■♦▸►✦]", resume_text)`. -/
def checkBullets (s : String) : Bool :=
  s.data.any (fun c => c ∈ (['■', '♦', '▸', '►', '✦'] : List Char))

/-- Trigger of the length check: `len(resume_text.split()) < 200`. -/
def checkShort (s : String) : Bool :=
  decide (pyWordCount s.data < 200)

/-- `simple_ats_checks` (streamlit_app.py 189-206): sequential, independent
appends of one warning per triggered check; empty input returns `[]`. -/
def simple_ats_checks (resume_text : String) : List String :=
  if resume_text = "" then []
  else
    (if checkColumns resume_text then [msg_columns] else [])
      ++ (if checkImages resume_text then [msg_images] else [])
      ++ (if checkBullets resume_text then [msg_bullets] else [])
      ++ (if checkShort resume_text then [msg_short] else [])

/-- Squared Euclidean norm of the term-frequency vector of `toks` over the
vocabulary `V`. -/
noncomputable def sqNorm (toks : List String) (V : Finset String) : ℝ :=
  ∑ w in V, ((toks.count w : ℝ)) ^ 2

/-- `np.linalg.norm` of the term-frequency vector of `toks` over `V`. -/
noncomputable def l2norm (toks : List String) (V : Finset String) : ℝ :=
  Real.sqrt (sqNorm toks V)

/-- Coordinate `w` of the vector `build_vec(tokens)` of
`compute_similarity_score`: term frequency divided by the Euclidean norm.
When the norm is zero every count is zero, so this is the unchanged zero
vector returned by the `if np.linalg.norm(v) > 0` guard (division by zero
yields `0` in Lean, matching that case exactly). -/
noncomputable def build_vec (toks : List String) (V : Finset String) (w : String) : ℝ :=
  (toks.count w : ℝ) / l2norm toks V

/-- Round-half-even to an integer: the tie behaviour of Python `round`. -/
noncomputable def roundHalfEven (y : ℝ) : ℤ :=
  if Int.fract y < 1 / 2 then ⌊y⌋
  else if 1 / 2 < Int.fract y then ⌊y⌋ + 1
  else if Even ⌊y⌋ then ⌊y⌋ else ⌊y⌋ + 1

/-- Python `round(x, 2)` on the idealized reals. -/
noncomputable def round2 (x : ℝ) : ℝ :=
  ((roundHalfEven (x * 100) : ℤ) : ℝ) / 100

/-- `compute_similarity_score` (streamlit_app.py 302-333), the in-repository
term-frequency cosine (the `SKLEARN_AVAILABLE` branch calls the external
sklearn library and is not part of this repository's code; per the spec it is
an optional alternative strategy).  Structure follows the source: empty-string
guard, empty-vocabulary guard, normalized vectors, zero-denominator guard,
dot product, `round(sim * 100, 2)`. -/
noncomputable def compute_similarity_score (resume_text jd_text : String) : ℝ :=
  if resume_text = "" ∨ jd_text = "" then 0
  else if (tokenize resume_text ++ tokenize jd_text).toFinset = ∅ then 0
  else if
      Real.sqrt (∑ w in (tokenize resume_text ++ tokenize jd_text).toFinset,
          build_vec (tokenize resume_text)
            ((tokenize resume_text ++ tokenize jd_text).toFinset) w ^ 2) *
        Real.sqrt (∑ w in (tokenize resume_text ++ tokenize jd_text).toFinset,
          build_vec (tokenize jd_text)
            ((tokenize resume_text ++ tokenize jd_text).toFinset) w ^ 2) = 0
    then 0
  else
    round2 ((∑ w in (tokenize resume_text ++ tokenize jd_text).toFinset,
        build_vec (tokenize resume_text)
            ((tokenize resume_text ++ tokenize jd_text).toFinset) w *
          build_vec (tokenize jd_text)
            ((tokenize resume_text ++ tokenize jd_text).toFinset) w) * 100)

/-- The cosine-similarity formula as the specification states it: the dot
product of the two L2-normalized term-frequency vectors built over the union
vocabulary of the two token sequences. -/
noncomputable def cosine_spec (r j : List String) : ℝ :=
  ∑ w in (r ++ j).toFinset,
    ((r.count w : ℝ) / l2norm r ((r ++ j).toFinset)) *
      ((j.count w : ℝ) / l2norm j ((r ++ j).toFinset))

/-- Modelled from the spec sentence for claim C6 ("remove the first matching
suffix only if the remaining stem length is at least a minimum threshold"):
find the first suffix that merely *matches*, then strip it only when the
stem-length gate holds.  This differs from `normalize_word`, which skips a
matching-but-too-short suffix and keeps trying shorter ones. -/
def normalize_word_firstmatch (w : String) : String :=
  let u := preNorm w
  match SUFFIXES.find? (fun suf => suf.isSuffixOf u) with
  | some suf => if 2 ≤ u.length - suf.length then String.mk (u.take (u.length - suf.length)) else String.mk u
  | none => String.mk u

/-! ### Basic character and list facts -/

theorem stemAlnum_wordChar {c : Char} (h : stemAlnum c = true) : wordChar c = true := by
  unfold stemAlnum at h
  unfold wordChar
  rcases Bool.or_eq_true_iff.mp h with h' | h' <;> simp [h']

theorem stemAlnum_tokenChar {c : Char} (h : stemAlnum c = true) : tokenChar c = true := by
  unfold stemAlnum at h
  unfold tokenChar
  rcases Bool.or_eq_true_iff.mp h with h' | h' <;> simp [h']

theorem pySpace_not_tokenChar {c : Char} (h : pySpace c = true) : tokenChar c = false := by
  simp only [pySpace, decide_eq_true_eq] at h
  fin_cases h <;> decide

theorem tokenChar_pyLower {c : Char} (h : tokenChar c = true) : tokenChar (pyLower c) = true := by
  unfold pyLower
  cases hf : upperLower.find? (fun p => p.1 = c) with
  | none => simpa using h
  | some p =>
    have hmem := List.mem_of_find?_eq_some hf
    have htable : ∀ q ∈ upperLower, tokenChar q.2 = true := by decide
    simpa using htable p hmem

theorem pyLower_digit {c : Char} (h1 : '0' ≤ c) (h2 : c ≤ '9') : pyLower c = c := by
  unfold pyLower
  have hnone : upperLower.find? (fun p => p.1 = c) = none := by
    rw [List.find?_eq_none]
    intro p hp
    have htable : ∀ q ∈ upperLower, '9' < q.1 := by decide
    simp only [decide_eq_true_eq]
    intro hpc
    exact absurd (lt_of_lt_of_le (htable p hp) (hpc ▸ h2)) (by simp)
  rw [hnone]
  rfl

theorem dropWhile_eq_self_of_head {α} {p : α → Bool} {l : List α}
    (h : ∀ c, l.head? = some c → p c = false) : l.dropWhile p = l := by
  cases l with
  | nil => rfl
  | cons c cs =>
    have := h c rfl
    simp [List.dropWhile_cons, this]

theorem dropWhile_head? {α} {p : α → Bool} {l : List α} {c : α}
    (h : (l.dropWhile p).head? = some c) : p c = false := by
  induction l with
  | nil => simp at h
  | cons a l ih =>
    rw [List.dropWhile_cons] at h
    by_cases hp : p a = true
    · rw [if_pos hp] at h
      exact ih h
    · rw [if_neg hp] at h
      simp only [List.head?_cons, Option.some.injEq] at h
      subst h
      simpa using hp

theorem takeWhile_dropWhile_append {α} {p : α → Bool} {t rest : List α}
    (ht : ∀ c ∈ t, p c = true) (hr : ∀ c, rest.head? = some c → p c = false) :
    (t ++ rest).takeWhile p = t ∧ (t ++ rest).dropWhile p = rest := by
  induction t with
  | nil =>
    simp only [List.nil_append]
    cases rest with
    | nil => exact ⟨rfl, rfl⟩
    | cons c cs =>
      have := hr c rfl
      constructor
      · simp [List.takeWhile_cons, this]
      · simp [List.dropWhile_cons, this]
  | cons c t' ih =>
    have hc : p c = true := ht c (List.mem_cons_self _ _)
    have ih' := ih (fun d hd => ht d (List.mem_cons_of_mem _ hd))
    simp only [List.cons_append, List.takeWhile_cons, List.dropWhile_cons, hc, if_true]
    exact ⟨by rw [ih'.1], by rw [ih'.2]⟩

/-! ### `stripEnds` facts -/

theorem stripEnds_subset {l : List Char} : ∀ c ∈ stripEnds l, c ∈ l := by
  intro c hc
  unfold stripEnds at hc
  rw [List.mem_reverse] at hc
  have h1 := (List.dropWhile_sublist (l := (l.dropWhile fun c => !stemAlnum c).reverse)
    (p := fun c => !stemAlnum c)).subset hc
  rw [List.mem_reverse] at h1
  exact (List.dropWhile_sublist (l := l) (p := fun c => !stemAlnum c)).subset h1

theorem stripEnds_length_le {l : List Char} : (stripEnds l).length ≤ l.length := by
  unfold stripEnds
  calc ((l.dropWhile fun c => !stemAlnum c).reverse.dropWhile fun c => !stemAlnum c).reverse.length
      = ((l.dropWhile fun c => !stemAlnum c).reverse.dropWhile fun c => !stemAlnum c).length := by
        rw [List.length_reverse]
    _ ≤ (l.dropWhile fun c => !stemAlnum c).reverse.length :=
        (List.dropWhile_sublist _).length_le
    _ = (l.dropWhile fun c => !stemAlnum c).length := by rw [List.length_reverse]
    _ ≤ l.length := (List.dropWhile_sublist _).length_le

theorem stripEnds_getLast? {l : List Char} {c : Char}
    (h : (stripEnds l).getLast? = some c) : stemAlnum c = true := by
  unfold stripEnds at h
  rw [List.getLast?_reverse] at h
  have := dropWhile_head? h
  simpa using this

theorem stripEnds_head? {l : List Char} {c : Char}
    (h : (stripEnds l).head? = some c) : stemAlnum c = true := by
  unfold stripEnds at h
  rw [List.head?_reverse] at h
  obtain ⟨pre, hpre⟩ :=
    List.dropWhile_suffix (l := (l.dropWhile fun c => !stemAlnum c).reverse)
      (fun c => !stemAlnum c)
  have hne : (l.dropWhile fun c => !stemAlnum c).reverse.dropWhile
      (fun c => !stemAlnum c) ≠ [] := by
    intro hnil
    rw [hnil] at h
    simp at h
  have h2 : ((l.dropWhile fun c => !stemAlnum c).reverse).getLast? = some c := by
    rw [← hpre, List.getLast?_append_of_ne_nil _ hne]
    exact h
  rw [List.getLast?_reverse] at h2
  have h3 := dropWhile_head? h2
  simpa using h3

/-! ### `stripLoop` characterization -/

theorem stripLoop_spec (sufs : List (List Char)) (w : List Char) :
    (stripLoop sufs w = w ∧
      ∀ s ∈ sufs, ¬(s.isSuffixOf w = true ∧ 2 ≤ w.length - s.length)) ∨
    (∃ pre s post, sufs = pre ++ s :: post ∧
      (∀ s' ∈ pre, ¬(s'.isSuffixOf w = true ∧ 2 ≤ w.length - s'.length)) ∧
      s.isSuffixOf w = true ∧ 2 ≤ w.length - s.length ∧
      stripLoop sufs w = w.take (w.length - s.length)) := by
  induction sufs with
  | nil => exact Or.inl ⟨rfl, by simp⟩
  | cons s0 rest ih =>
    by_cases h : s0.isSuffixOf w = true ∧ 2 ≤ w.length - s0.length
    · refine Or.inr ⟨[], s0, rest, rfl, by simp, h.1, h.2, ?_⟩
      show stripLoop (s0 :: rest) w = _
      unfold stripLoop
      rw [if_pos (by simp [h.1, h.2])]
    · have hstep : stripLoop (s0 :: rest) w = stripLoop rest w := by
        conv_lhs => unfold stripLoop
        rw [if_neg (by simpa [Decidable.not_and_iff_or_not, Bool.and_eq_true] using h)]
      rcases ih with ⟨heq, hall⟩ | ⟨pre, s, post, hsplit, hpre, hs1, hs2, heq⟩
      · refine Or.inl ⟨hstep.trans heq, ?_⟩
        intro s' hs'
        rcases List.mem_cons.mp hs' with rfl | hs'
        · exact h
        · exact hall s' hs'
      · refine Or.inr ⟨s0 :: pre, s, post, by rw [hsplit]; rfl, ?_, hs1, hs2,
          hstep.trans heq⟩
        intro s' hs'
        rcases List.mem_cons.mp hs' with rfl | hs'
        · exact h
        · exact hpre s' hs'

theorem stripLoop_self_or_take (sufs : List (List Char)) (w : List Char) :
    stripLoop sufs w = w ∨
    ∃ s ∈ sufs, s.isSuffixOf w = true ∧ 2 ≤ w.length - s.length ∧
      stripLoop sufs w = w.take (w.length - s.length) := by
  rcases stripLoop_spec sufs w with ⟨heq, _⟩ | ⟨pre, s, post, hsplit, _, hs1, hs2, heq⟩
  · exact Or.inl heq
  · exact Or.inr ⟨s, by rw [hsplit]; exact List.mem_append_right _ (List.mem_cons_self _ _),
      hs1, hs2, heq⟩

theorem take_append_of_suffix {w s : List Char} (h : s <:+ w) :
    w.take (w.length - s.length) ++ s = w := by
  obtain ⟨pre, rfl⟩ := h
  have hlen : (pre ++ s).length - s.length = pre.length := by
    simp [List.length_append]
  rw [hlen, List.take_left]

/-! ### `largestCutAux` and `scanAux` facts -/

theorem largestCutAux_bounds {run : List Char} {next : Option Char} :
    ∀ {b j : Nat}, largestCutAux run next b = some j → 1 ≤ j ∧ j ≤ b := by
  intro b
  induction b with
  | zero => intro j h; simp [largestCutAux] at h
  | succ b ih =>
    intro j h
    unfold largestCutAux at h
    by_cases hc : cutOK run next (b + 1) = true
    · rw [if_pos hc] at h
      cases h
      exact ⟨Nat.succ_le_succ (Nat.zero_le _), le_refl _⟩
    · rw [if_neg hc] at h
      obtain ⟨h1, h2⟩ := ih h
      exact ⟨h1, Nat.le_succ_of_le h2⟩

theorem largestCutAux_top {run : List Char} {next : Option Char} {b : Nat}
    (hb : 1 ≤ b) (hc : cutOK run next b = true) :
    largestCutAux run next b = some b := by
  cases b with
  | zero => exact absurd hb (by simp)
  | succ b => unfold largestCutAux; rw [if_pos hc]

theorem scanAux_nil (fuel : Nat) (prev : Option Char) : scanAux fuel prev [] = [] := by
  cases fuel <;> rfl

theorem scanAux_no_token :
    ∀ (fuel : Nat) (prev : Option Char) (l : List Char),
      (∀ c ∈ l, tokenChar c = false) → scanAux fuel prev l = [] := by
  intro fuel
  induction fuel with
  | zero => intro prev l _; rfl
  | succ fuel ih =>
    intro prev l h
    cases l with
    | nil => rfl
    | cons c cs =>
      have hc : tokenChar c = false := h c (List.mem_cons_self _ _)
      show scanAux (fuel + 1) prev (c :: cs) = []
      unfold scanAux
      rw [if_neg (by simp [hc])]
      exact ih (some c) cs (fun d hd => h d (List.mem_cons_of_mem _ hd))

theorem boundaryAt_nonword {p : Char} {l : List Char} (hp : wordChar p = false) :
    boundaryAt (some p) l = boundaryAt none l := by
  unfold boundaryAt
  simp [hp]

theorem scanAux_prev_nonword {fuel : Nat} {p : Char} {l : List Char}
    (hp : wordChar p = false) : scanAux fuel (some p) l = scanAux fuel none l := by
  cases fuel with
  | zero => rfl
  | succ fuel =>
    cases l with
    | nil => rfl
    | cons c cs =>
      show scanAux (fuel + 1) (some p) (c :: cs) = scanAux (fuel + 1) none (c :: cs)
      unfold scanAux
      rw [boundaryAt_nonword hp]

theorem scanAux_token_step {fuel : Nat} {t rest : List Char}
    (hne : t ≠ []) (hall : ∀ c ∈ t, tokenChar c = true)
    (hhead : ∀ c, t.head? = some c → wordChar c = true)
    (hlast : ∀ c, t.getLast? = some c → wordChar c = true)
    (hrest : ∀ h, rest.head? = some h → tokenChar h = false ∧ wordChar h = false) :
    scanAux (fuel + 1) none (t ++ rest) = t :: scanAux fuel t.getLast? rest := by
  obtain ⟨c, t', rfl⟩ := List.exists_cons_of_ne_nil hne
  have hc : tokenChar c = true := hall c (List.mem_cons_self _ _)
  have hwc : wordChar c = true := hhead c rfl
  have htd := @takeWhile_dropWhile_append Char tokenChar (c :: t') rest
      hall (fun d hd => (hrest d hd).1)
  have hcond : (tokenChar c && boundaryAt none (c :: (t' ++ rest))) = true := by
    simp [hc, boundaryAt, hwc]
  have hlen1 : 1 ≤ (c :: t').length := Nat.succ_le_succ (Nat.zero_le _)
  have hcut : cutOK (c :: t') rest.head? ((c :: t').length) = true := by
    unfold cutOK
    rw [if_neg (lt_irrefl _)]
    have hleft : (c :: t').get? ((c :: t').length - 1) = (c :: t').getLast? := by
      rw [List.get?_eq_getElem?, List.getLast?_eq_getElem?]
    rw [hleft]
    obtain ⟨d, hd⟩ : ∃ d, (c :: t').getLast? = some d := by
      cases h' : (c :: t').getLast? with
      | none => simp [List.getLast?_eq_getElem?] at h'
      | some d => exact ⟨d, rfl⟩
    rw [hd]
    have hwd := hlast d hd
    cases hres : rest.head? with
    | none => simp [hwd]
    | some h0 =>
      have := (hrest h0 hres).2
      simp [hwd, this]
  have hLC : largestCut (c :: t') rest.head? = some ((c :: t').length) :=
    largestCutAux_top hlen1 hcut
  show scanAux (fuel + 1) none (c :: (t' ++ rest)) = _
  conv_lhs => unfold scanAux
  rw [if_pos hcond]
  simp only [show (c :: (t' ++ rest)) = (c :: t') ++ rest from rfl, htd.1, htd.2]
  rw [hLC]
  simp [List.take_length, List.drop_length]

theorem scanAux_skip {fuel : Nat} {prev : Option Char} {c : Char} {cs : List Char}
    (hc : tokenChar c = false) : scanAux (fuel + 1) prev (c :: cs) = scanAux fuel (some c) cs := by
  conv_lhs => unfold scanAux
  rw [if_neg (by simp [hc])]

theorem intercalate_cons_cons (xs : List Char) (t u : List Char) (ts : List (List Char)) :
    List.intercalate xs (t :: u :: ts) = t ++ xs ++ List.intercalate xs (u :: ts) := by
  simp [List.intercalate, List.intersperse]

theorem intercalate_single (xs : List Char) (t : List Char) :
    List.intercalate xs [t] = t := by
  simp [List.intercalate]

theorem scan_join : ∀ (ts : List (List Char)),
    (∀ t ∈ ts, t ≠ [] ∧ (∀ c ∈ t, tokenChar c = true) ∧
      (∀ c, t.head? = some c → wordChar c = true) ∧
      (∀ c, t.getLast? = some c → wordChar c = true)) →
    ∀ fuel, (List.intercalate [' '] ts).length ≤ fuel →
      scanAux fuel none (List.intercalate [' '] ts) = ts := by
  intro ts
  induction ts with
  | nil =>
    intro _ fuel _
    have : List.intercalate ([' '] : List Char) [] = [] := by simp [List.intercalate]
    rw [this]
    exact scanAux_nil _ _
  | cons t ts' ih =>
    intro hgood fuel hfuel
    obtain ⟨hne, hall, hhead, hlast⟩ := hgood t (List.mem_cons_self _ _)
    cases ts' with
    | nil =>
      rw [intercalate_single] at hfuel ⊢
      have h1 : 1 ≤ t.length := by
        cases t with
        | nil => exact absurd rfl hne
        | cons a l => exact Nat.succ_le_succ (Nat.zero_le _)
      obtain ⟨f, rfl⟩ : ∃ f, fuel = f + 1 := by
        cases fuel with
        | zero => omega
        | succ f => exact ⟨f, rfl⟩
      have hstep := @scanAux_token_step f t []
        hne hall hhead hlast (by intro h hh; simp at hh)
      rw [List.append_nil] at hstep
      rw [hstep, scanAux_nil]
    | cons u ts'' =>
      rw [intercalate_cons_cons] at hfuel ⊢
      have h1 : 1 ≤ t.length := by
        cases t with
        | nil => exact absurd rfl hne
        | cons a l => exact Nat.succ_le_succ (Nat.zero_le _)
      have hlenf : t.length + 1 + (List.intercalate [' '] (u :: ts'')).length ≤ fuel := by
        have := hfuel
        simp only [List.length_append, List.length_cons, List.length_singleton] at this
        omega
      obtain ⟨f, rfl⟩ : ∃ f, fuel = f + 1 := by
        cases fuel with
        | zero => omega
        | succ f => exact ⟨f, rfl⟩
      have hstep := @scanAux_token_step f t
        (' ' :: List.intercalate [' '] (u :: ts''))
        hne hall hhead hlast
        (by
          intro h hh
          simp only [List.head?_cons, Option.some.injEq] at hh
          subst hh
          exact ⟨by decide, by decide⟩)
      have hshape : t ++ [' '] ++ List.intercalate [' '] (u :: ts'') =
          t ++ (' ' :: List.intercalate [' '] (u :: ts'')) := by
        simp
      rw [hshape, hstep]
      obtain ⟨f', rfl⟩ : ∃ f', f = f' + 1 := by
        cases f with
        | zero => omega
        | succ f' => exact ⟨f', rfl⟩
      rw [scanAux_skip (by decide), scanAux_prev_nonword (by decide)]
      congr 1
      exact ih (fun v hv => hgood v (List.mem_cons_of_mem _ hv)) f' (by omega)

theorem scanAux_sound :
    ∀ (fuel : Nat) (prev : Option Char) (l : List Char) (tok : List Char),
      tok ∈ scanAux fuel prev l → tok ≠ [] ∧ ∀ c ∈ tok, tokenChar c = true := by
  intro fuel
  induction fuel with
  | zero => intro prev l tok h; simp [scanAux] at h
  | succ fuel ih =>
    intro prev l tok h
    cases l with
    | nil => rw [scanAux_nil] at h; simp at h
    | cons c cs =>
      by_cases hcond : (tokenChar c && boundaryAt prev (c :: cs)) = true
      · rw [show scanAux (fuel + 1) prev (c :: cs) =
            (match largestCut ((c :: cs).takeWhile tokenChar)
                (((c :: cs).dropWhile tokenChar).head?) with
              | some j =>
                  ((c :: cs).takeWhile tokenChar).take j ::
                    scanAux fuel ((((c :: cs).takeWhile tokenChar).take j).getLast?)
                      (((c :: cs).takeWhile tokenChar).drop j ++
                        (c :: cs).dropWhile tokenChar)
              | none => scanAux fuel (some c) cs) from by
            conv_lhs => unfold scanAux
            rw [if_pos hcond]] at h
        cases hm : largestCut ((c :: cs).takeWhile tokenChar)
            (((c :: cs).dropWhile tokenChar).head?) with
        | none =>
          rw [hm] at h
          exact ih _ _ _ h
        | some j =>
          rw [hm] at h
          rcases List.mem_cons.mp h with rfl | hmem
          · rw [largestCut] at hm
            have hj := largestCutAux_bounds hm
            have hc : tokenChar c = true := by
              have := hcond
              simp only [Bool.and_eq_true] at this
              exact this.1
            constructor
            · rw [List.takeWhile_cons_of_pos hc]
              cases j with
              | zero => omega
              | succ j => simp
            · intro d hd
              have hd' : d ∈ (c :: cs).takeWhile tokenChar :=
                List.take_subset _ _ hd
              exact List.mem_takeWhile_imp hd'
          · exact ih _ _ _ hmem
      · rw [show scanAux (fuel + 1) prev (c :: cs) = scanAux fuel (some c) cs from by
            conv_lhs => unfold scanAux
            rw [if_neg hcond]] at h
        exact ih _ _ _ h

/-! ### `findall` / `tokenize` facts -/

theorem pyStrip_all_space {s : String} (h : pyStrip s = "") :
    ∀ c ∈ s.data, pySpace c = true := by
  unfold pyStrip at h
  have hX : ((s.data.dropWhile pySpace).reverse.dropWhile pySpace).reverse = [] :=
    congrArg String.data h
  rw [List.reverse_eq_nil_iff, List.dropWhile_eq_nil_iff] at hX
  intro c hc
  rw [← List.takeWhile_append_dropWhile (p := pySpace) (l := s.data)] at hc
  rcases List.mem_append.mp hc with hc | hc
  · exact List.mem_takeWhile_imp hc
  · exact hX c (List.mem_reverse.mpr hc)

theorem findall_space {s : String} (h : ∀ c ∈ s.data, pySpace c = true) :
    findall s = [] := by
  unfold findall
  rw [scanAux_no_token _ _ _ (fun c hc => pySpace_not_tokenChar (h c hc))]
  rfl

theorem mem_tokenize {t s : String} (h : t ∈ tokenize s) :
    (t ≠ "" ∧ STOPWORDS.contains t = false ∧ 2 ≤ t.length) ∧
      ∃ t0 ∈ findall s, t = normalize_word t0 := by
  unfold tokenize at h
  by_cases hs : s = ""
  · rw [if_pos hs] at h
    simp at h
  · rw [if_neg hs] at h
    obtain ⟨hmem, hpred⟩ := List.mem_filter.mp h
    obtain ⟨t0, ht0, rfl⟩ := List.mem_map.mp hmem
    obtain ⟨ht0', _⟩ := List.mem_filter.mp ht0
    simp only [Bool.and_eq_true, Bool.not_eq_true', decide_eq_true_eq] at hpred
    exact ⟨⟨hpred.1.1, hpred.1.2, hpred.2⟩, t0, ht0', rfl⟩

theorem tokenize_space {s : String} (h : ∀ c ∈ s.data, pySpace c = true) :
    tokenize s = [] := by
  unfold tokenize
  by_cases hs : s = ""
  · rw [if_pos hs]
  · rw [if_neg hs, findall_space h]
    rfl

theorem mem_findall {t s : String} (h : t ∈ findall s) :
    t.data ≠ [] ∧ ∀ c ∈ t.data, tokenChar c = true := by
  unfold findall at h
  obtain ⟨tok, htok, rfl⟩ := List.mem_map.mp h
  exact scanAux_sound _ _ _ _ htok

theorem normalize_word_chars {u : String} {c : Char}
    (h : c ∈ (normalize_word u).data) : ∃ d ∈ u.data, pyLower d = c := by
  unfold normalize_word at h
  have h1 : c ∈ stripEnds (u.data.map pyLower) := by
    rcases stripLoop_self_or_take SUFFIXES (stripEnds (u.data.map pyLower)) with heq |
        ⟨sfx, _, _, _, heq⟩
    · rwa [heq] at h
    · rw [heq] at h
      exact List.take_subset _ _ h
  have h2 : c ∈ u.data.map pyLower := stripEnds_subset c h1
  obtain ⟨d, hd, rfl⟩ := List.mem_map.mp h2
  exact ⟨d, hd, rfl⟩

theorem mem_tokenize_tokenChar {t s : String} (h : t ∈ tokenize s) :
    ∀ c ∈ t.data, tokenChar c = true := by
  obtain ⟨_, t0, ht0, rfl⟩ := mem_tokenize h
  intro c hc
  obtain ⟨d, hd, rfl⟩ := normalize_word_chars hc
  exact tokenChar_pyLower ((mem_findall ht0).2 d hd)

theorem normalize_fixed_eq_stripEnds {t : String} (h : normalize_word t = t) :
    t.data = stripEnds (t.data.map pyLower) := by
  have hd : stripLoop SUFFIXES (stripEnds (t.data.map pyLower)) = t.data := by
    have := congrArg String.data h
    simpa [normalize_word] using this
  rcases stripLoop_self_or_take SUFFIXES (stripEnds (t.data.map pyLower)) with heq |
      ⟨sfx, hsfx, hsuf, hgate, heq⟩
  · rw [heq] at hd
    exact hd.symm
  · exfalso
    rw [heq] at hd
    have hslen : 1 ≤ sfx.length := by
      have : ∀ x ∈ SUFFIXES, 1 ≤ x.length := by decide
      exact this sfx hsfx
    have hulen : (stripEnds (t.data.map pyLower)).length ≤ t.data.length := by
      have h1 := stripEnds_length_le (l := t.data.map pyLower)
      rwa [List.length_map] at h1
    have htake : t.data.length =
        (stripEnds (t.data.map pyLower)).length - sfx.length := by
      have := congrArg List.length hd
      simp only [List.length_take] at this
      omega
    omega

theorem string_mk_data (t : String) : String.mk t.data = t := rfl

theorem string_ne_empty_of_data {t : String} (h : t.data ≠ []) : t ≠ "" := by
  intro he
  rw [he] at h
  exact h rfl

theorem data_ne_nil_of_two_le {t : String} (h : 2 ≤ t.length) : t.data ≠ [] := by
  intro he
  have : t.length = t.data.length := rfl
  rw [this, he] at h
  simp at h

theorem tokenize_good_tokens {s : String}
    (hfix : ∀ t ∈ tokenize s, normalize_word t = t) :
    ∀ t ∈ tokenize s, t.data ≠ [] ∧ (∀ c ∈ t.data, tokenChar c = true) ∧
      (∀ c, t.data.head? = some c → wordChar c = true) ∧
      (∀ c, t.data.getLast? = some c → wordChar c = true) := by
  intro t ht
  obtain ⟨⟨hne, hstop, hlen⟩, _⟩ := mem_tokenize ht
  have hdata : t.data ≠ [] := data_ne_nil_of_two_le hlen
  have hse := normalize_fixed_eq_stripEnds (hfix t ht)
  refine ⟨hdata, mem_tokenize_tokenChar ht, ?_, ?_⟩
  · intro c hc
    rw [hse] at hc
    exact stemAlnum_wordChar (stripEnds_head? hc)
  · intro c hc
    rw [hse] at hc
    exact stemAlnum_wordChar (stripEnds_getLast? hc)

theorem findall_join {ts : List String}
    (hgood : ∀ t ∈ ts, t.data ≠ [] ∧ (∀ c ∈ t.data, tokenChar c = true) ∧
      (∀ c, t.data.head? = some c → wordChar c = true) ∧
      (∀ c, t.data.getLast? = some c → wordChar c = true)) :
    findall (join_space ts) = ts := by
  unfold findall join_space
  have hscan := scan_join (ts.map String.data)
    (by
      intro td htd
      obtain ⟨t, ht, rfl⟩ := List.mem_map.mp htd
      exact hgood t ht)
    (List.intercalate [' '] (ts.map String.data)).length (le_refl _)
  simp only [show (String.mk (List.intercalate [' '] (ts.map String.data))).data =
    List.intercalate [' '] (ts.map String.data) from rfl]
  rw [hscan, List.map_map]
  have hid : String.mk ∘ String.data = id := funext fun t => rfl
  rw [hid, List.map_id]

theorem tokenize_join_fixed {text : String}
    (hfix : ∀ t ∈ tokenize text, normalize_word t = t) :
    tokenize (join_space (tokenize text)) = tokenize text := by
  cases hts : tokenize text with
  | nil =>
    show tokenize (join_space []) = []
    rfl
  | cons t ts' =>
    have hgood := tokenize_good_tokens hfix
    rw [hts] at hgood
    have hfix' : ∀ u ∈ t :: ts', normalize_word u = u := by
      intro u hu
      exact hfix u (hts ▸ hu)
    have hJ : findall (join_space (t :: ts')) = t :: ts' := findall_join hgood
    have hjs_ne : join_space (t :: ts') ≠ "" := by
      apply string_ne_empty_of_data
      show List.intercalate [' '] ((t :: ts').map String.data) ≠ []
      rcases ts' with _ | ⟨u, ts''⟩
      · simp only [List.map_cons, List.map_nil, intercalate_single]
        exact (hgood t (List.mem_cons_self _ _)).1
      · rw [List.map_cons, List.map_cons, intercalate_cons_cons]
        intro hnil
        have := congrArg List.length hnil
        simp only [List.length_append, List.length_singleton, List.length_nil] at this
        omega
    have hmemfacts : ∀ u ∈ t :: ts',
        (u ≠ "" ∧ STOPWORDS.contains u = false ∧ 2 ≤ u.length) := by
      intro u hu
      exact (mem_tokenize (s := text) (hts ▸ hu)).1
    unfold tokenize
    rw [if_neg hjs_ne, hJ]
    have hf1 : (t :: ts').filter (fun u => u ≠ "") = t :: ts' := by
      rw [List.filter_eq_self]
      intro u hu
      simpa using (hmemfacts u hu).1
    rw [hf1]
    have hf2 : (t :: ts').map normalize_word = t :: ts' := by
      have : ∀ u ∈ t :: ts', normalize_word u = u := hfix'
      calc (t :: ts').map normalize_word = (t :: ts').map id := List.map_congr_left this
        _ = t :: ts' := List.map_id _
    rw [hf2]
    rw [List.filter_eq_self]
    intro u hu
    obtain ⟨h1, h2, h3⟩ := hmemfacts u hu
    have h2' : u ∉ STOPWORDS := by
      intro hm
      have hc : STOPWORDS.contains u = true := by
        simp [List.contains, List.elem_eq_mem, hm]
      rw [hc] at h2
      simp at h2
    simp [h1, h2', h3]

/-! ### Digit-token facts -/

set_option maxRecDepth 8192 in
theorem stopword_has_lower_letter :
    ∀ w ∈ STOPWORDS, ∃ c ∈ w.data, 'a' ≤ c ∧ c ≤ 'z' := by decide

theorem suffix_has_letter :
    ∀ s ∈ SUFFIXES, ∃ c ∈ s, c = 's' ∨ c = 'g' ∨ c = 'd' := by decide

theorem digit_stemAlnum {c : Char} (h1 : '0' ≤ c) (h2 : c ≤ '9') :
    stemAlnum c = true := by
  simp [stemAlnum, h1, h2]

theorem digit_tokenize {t : String} (hne : t.data ≠ [])
    (hdig : ∀ c ∈ t.data, '0' ≤ c ∧ c ≤ '9') (hlen : 2 ≤ t.length) :
    tokenize t = [t] := by
  have halnum : ∀ c ∈ t.data, stemAlnum c = true :=
    fun c hc => digit_stemAlnum (hdig c hc).1 (hdig c hc).2
  have htok : ∀ c ∈ t.data, tokenChar c = true :=
    fun c hc => stemAlnum_tokenChar (halnum c hc)
  have hword : ∀ c ∈ t.data, wordChar c = true :=
    fun c hc => stemAlnum_wordChar (halnum c hc)
  -- findall t = [t]
  have hfind : findall t = [t] := by
    unfold findall
    obtain ⟨f, hf⟩ : ∃ f, t.data.length = f + 1 := by
      cases hd : t.data with
      | nil => exact absurd hd hne
      | cons a l => exact ⟨l.length, by simp [hd]⟩
    rw [hf]
    have hstep := @scanAux_token_step f t.data []
      hne htok
      (fun c hc => hword c (List.mem_of_mem_head? (hc ▸ rfl)))
      (fun c hc => hword c (List.mem_of_getLast?_eq_some hc))
      (by intro h hh; simp at hh)
    rw [List.append_nil] at hstep
    rw [hstep, scanAux_nil]
    rfl
  -- pyLower fixes digits
  have hlow : t.data.map pyLower = t.data := by
    calc t.data.map pyLower = t.data.map id :=
          List.map_congr_left (fun c hc => pyLower_digit (hdig c hc).1 (hdig c hc).2)
      _ = t.data := List.map_id _
  -- stripEnds fixes all-alnum lists
  have hstrip : stripEnds t.data = t.data := by
    unfold stripEnds
    have h1 : t.data.dropWhile (fun c => !stemAlnum c) = t.data := by
      apply dropWhile_eq_self_of_head
      intro c hc
      simp [halnum c (List.mem_of_mem_head? (hc ▸ rfl))]
    rw [h1]
    have h2 : t.data.reverse.dropWhile (fun c => !stemAlnum c) = t.data.reverse := by
      apply dropWhile_eq_self_of_head
      intro c hc
      have : c ∈ t.data := List.mem_reverse.mp (List.mem_of_mem_head? (hc ▸ rfl))
      simp [halnum c this]
    rw [h2, List.reverse_reverse]
  -- stripLoop does not fire on all-digit words
  have hloop : stripLoop SUFFIXES t.data = t.data := by
    rcases stripLoop_self_or_take SUFFIXES t.data with heq | ⟨sfx, hsfx, hsuf, _, _⟩
    · exact heq
    · exfalso
      have hsub : sfx ⊆ t.data := by
        have : sfx <:+ t.data := by simpa using hsuf
        exact this.subset
      obtain ⟨c, hcs, hc3⟩ := suffix_has_letter sfx hsfx
      have hcd := hdig c (hsub hcs)
      rcases hc3 with rfl | rfl | rfl
      · exact absurd hcd.2 (by decide)
      · exact absurd hcd.2 (by decide)
      · exact absurd hcd.2 (by decide)
  have hnorm : normalize_word t = t := by
    unfold normalize_word
    rw [hlow, hstrip, hloop]
  -- t is not a stopword
  have hmem : t ∉ STOPWORDS := by
    intro hm
    obtain ⟨c, hcs, hc1, hc2⟩ := stopword_has_lower_letter t hm
    have hcd := hdig c hcs
    exact absurd (le_trans hc1 hcd.2) (by decide)
  have hstop : STOPWORDS.contains t = false := by
    cases hcb : STOPWORDS.contains t with
    | false => rfl
    | true =>
      exfalso
      apply hmem
      have := hcb
      simp [List.contains, List.elem_eq_mem] at this
      exact this
  have hne' : t ≠ "" := string_ne_empty_of_data hne
  unfold tokenize
  rw [if_neg hne', hfind]
  simp [hne', hnorm, hstop, hmem, hlen]

/-! ### Claim theorems: tokenizer (C6, C7, C8) -/

/-- C6 counterexample: the claim reads `normalize_word` as "find the first
suffix that merely matches, then strip only if the stem-length gate holds".
On `"aes"` the first matching suffix is `es` (stem `a`, too short), so that
reading returns `"aes"` unchanged; the code, however, keeps trying shorter
suffixes, strips `s`, and returns `"ae"`. -/
theorem c6_counterexample :
    normalize_word "aes" = "ae" ∧ normalize_word_firstmatch "aes" = "aes" ∧
      normalize_word "aes" ≠ normalize_word_firstmatch "aes" := by decide

/-- C6 (amended): `normalize_word` strips at most one suffix; the suffix list
is tried in the fixed order `ings, ing, ed, es, s`, whose lengths are
non-increasing (longest first); the suffix actually removed is the FIRST one
that both matches and leaves a stem of length at least 2 (a matching suffix
whose stem would be too short is skipped and shorter suffixes are still
tried); a removal never leaves a stem shorter than 2. -/
theorem c6_amended :
    List.Pairwise (fun a b => (b : List Char).length ≤ a.length) SUFFIXES ∧
    ∀ w : String,
      ((normalize_word w).data = preNorm w ∧
        ∀ s ∈ SUFFIXES,
          ¬(s.isSuffixOf (preNorm w) = true ∧ 2 ≤ (preNorm w).length - s.length)) ∨
      (∃ pre s post, SUFFIXES = pre ++ s :: post ∧
        (∀ s' ∈ pre,
          ¬(s'.isSuffixOf (preNorm w) = true ∧ 2 ≤ (preNorm w).length - s'.length)) ∧
        s.isSuffixOf (preNorm w) = true ∧ 2 ≤ (preNorm w).length - s.length ∧
        (normalize_word w).data ++ s = preNorm w ∧
        2 ≤ (normalize_word w).data.length) := by
  refine ⟨by decide, ?_⟩
  intro w
  have hdata : (normalize_word w).data = stripLoop SUFFIXES (preNorm w) := rfl
  rcases stripLoop_spec SUFFIXES (preNorm w) with ⟨heq, hall⟩ |
      ⟨pre, s, post, hsplit, hpre, hs1, hs2, heq⟩
  · exact Or.inl ⟨hdata.trans heq, hall⟩
  · refine Or.inr ⟨pre, s, post, hsplit, hpre, hs1, hs2, ?_, ?_⟩
    · rw [hdata, heq]
      exact take_append_of_suffix (by simpa using hs1)
    · rw [hdata, heq, List.length_take]
      have hsle : s.length ≤ (preNorm w).length := by
        have : s <:+ (preNorm w) := by simpa using hs1
        exact this.length_le
      omega

/-- C6 witness: the amended characterization applied at `"runnings"`
(the suffix `ings` matches with stem `runn`, so exactly it is stripped). -/
theorem c6_witness :
    ((normalize_word "runnings").data = preNorm "runnings" ∧
      ∀ s ∈ SUFFIXES,
        ¬(s.isSuffixOf (preNorm "runnings") = true ∧
          2 ≤ (preNorm "runnings").length - s.length)) ∨
    (∃ pre s post, SUFFIXES = pre ++ s :: post ∧
      (∀ s' ∈ pre,
        ¬(s'.isSuffixOf (preNorm "runnings") = true ∧
          2 ≤ (preNorm "runnings").length - s'.length)) ∧
      s.isSuffixOf (preNorm "runnings") = true ∧
      2 ≤ (preNorm "runnings").length - s.length ∧
      (normalize_word "runnings").data ++ s = preNorm "runnings" ∧
      2 ≤ (normalize_word "runnings").data.length) :=
  c6_amended.2 "runnings"

/-- C7 counterexample: tokenization is not idempotent.  `tokenize "boss"`
yields `["bos"]` (one `s` stripped), but re-tokenizing the joined output
strips a further `s`: `tokenize "bos" = ["bo"]`. -/
theorem c7_counterexample :
    tokenize "boss" = ["bos"] ∧
      tokenize (join_space (tokenize "boss")) = ["bo"] ∧
      tokenize (join_space (tokenize "boss")) ≠ tokenize "boss" := by decide

/-- C7 (amended): tokenization is idempotent exactly on texts whose output
tokens are fixed points of `normalize_word`; for such texts the regex scan
reproduces each token and re-normalization changes nothing.  (In general a
second pass may strip one more suffix, as the counterexample shows.) -/
theorem c7_amended (text : String)
    (hfix : ∀ t ∈ tokenize text, normalize_word t = t) :
    tokenize (join_space (tokenize text)) = tokenize text :=
  tokenize_join_fixed hfix

/-- C7 witness: `"java sql"` tokenizes to `["java", "sql"]`, both fixed under
`normalize_word`, and re-tokenizing the joined output reproduces them. -/
theorem c7_witness :
    (∀ t ∈ tokenize "java sql", normalize_word t = t) ∧
      tokenize (join_space (tokenize "java sql")) = tokenize "java sql" :=
  ⟨by decide, c7_amended "java sql" (by decide)⟩

/-- C8 counterexample: the regex scanner finds the digit-only token `"7"`,
but `tokenize` drops it (its length is below the `len(t) >= 2` filter), so
digit-only tokens are NOT always retained by the tokenizer. -/
theorem c8_counterexample :
    findall "7" = ["7"] ∧ tokenize "7" = [] := by decide

/-- C8 (amended): `tokenize` is total and returns `[]` on the empty string;
`normalize_word` never strips a suffix when the remaining stem would be
shorter than 2 characters (such tokens pass through with no suffix removed);
and a digit-only token is retained unchanged by `tokenize` provided it has
length at least 2 (length-1 tokens, digit-only ones included, are removed by
the final `len >= 2` filter, and stop words are removed as well). -/
theorem c8_amended :
    tokenize "" = [] ∧
    (∀ w : String, (normalize_word w).data = preNorm w ∨
      ∃ s ∈ SUFFIXES, (normalize_word w).data ++ s = preNorm w ∧
        2 ≤ (normalize_word w).data.length) ∧
    (∀ t : String, t.data ≠ [] → (∀ c ∈ t.data, '0' ≤ c ∧ c ≤ '9') →
      2 ≤ t.length → tokenize t = [t]) := by
  refine ⟨rfl, ?_, fun t h1 h2 h3 => digit_tokenize h1 h2 h3⟩
  intro w
  have hdata : (normalize_word w).data = stripLoop SUFFIXES (preNorm w) := rfl
  rcases stripLoop_self_or_take SUFFIXES (preNorm w) with heq |
      ⟨s, hs, hs1, hs2, heq⟩
  · exact Or.inl (hdata.trans heq)
  · refine Or.inr ⟨s, hs, ?_, ?_⟩
    · rw [hdata, heq]
      exact take_append_of_suffix (by simpa using hs1)
    · rw [hdata, heq, List.length_take]
      have hsle : s.length ≤ (preNorm w).length := by
        have : s <:+ (preNorm w) := by simpa using hs1
        exact this.length_le
      omega

/-- C8 witness: the digit-only token `"2023"` is retained unchanged. -/
theorem c8_witness :
    (("2023" : String).data ≠ [] ∧ (∀ c ∈ ("2023" : String).data, '0' ≤ c ∧ c ≤ '9') ∧
      2 ≤ ("2023" : String).length) ∧ tokenize "2023" = ["2023"] :=
  ⟨⟨by decide, by decide, by decide⟩,
    c8_amended.2.2 "2023" (by decide) (by decide) (by decide)⟩

/-! ### Claim theorem: formatting checks (C9) -/

/-- C9: `simple_ats_checks` is a total function (never raises); on the empty
string it returns `[]`; the result is `[]` exactly when no check triggers;
each of the four pattern checks independently contributes exactly one
occurrence of its own human-readable warning when (and only when) it
triggers; and nothing but the four fixed warnings ever appears. -/
theorem c9_formatting_checks (s : String) :
    simple_ats_checks "" = [] ∧
    (simple_ats_checks s = [] ↔
      (s = "" ∨ (checkColumns s = false ∧ checkImages s = false ∧
        checkBullets s = false ∧ checkShort s = false))) ∧
    (s ≠ "" →
      ((simple_ats_checks s).count msg_columns = if checkColumns s then 1 else 0) ∧
      ((simple_ats_checks s).count msg_images = if checkImages s then 1 else 0) ∧
      ((simple_ats_checks s).count msg_bullets = if checkBullets s then 1 else 0) ∧
      ((simple_ats_checks s).count msg_short = if checkShort s then 1 else 0)) ∧
    (∀ m ∈ simple_ats_checks s, m = msg_columns ∨ m = msg_images ∨
      m = msg_bullets ∨ m = msg_short) := by
  have hd12 : msg_columns ≠ msg_images := by decide
  have hd13 : msg_columns ≠ msg_bullets := by decide
  have hd14 : msg_columns ≠ msg_short := by decide
  have hd23 : msg_images ≠ msg_bullets := by decide
  have hd24 : msg_images ≠ msg_short := by decide
  have hd34 : msg_bullets ≠ msg_short := by decide
  refine ⟨rfl, ?_, ?_, ?_⟩
  · by_cases hs : s = ""
    · simp [simple_ats_checks, hs]
    · unfold simple_ats_checks
      rw [if_neg hs]
      by_cases h1 : checkColumns s <;> by_cases h2 : checkImages s <;>
        by_cases h3 : checkBullets s <;> by_cases h4 : checkShort s <;>
        simp [h1, h2, h3, h4, hs]
  · intro hs
    unfold simple_ats_checks
    rw [if_neg hs]
    by_cases h1 : checkColumns s <;> by_cases h2 : checkImages s <;>
      by_cases h3 : checkBullets s <;> by_cases h4 : checkShort s <;>
      simp [h1, h2, h3, h4, List.count_append, List.count_cons, List.count_nil,
        hd12, hd13, hd14, hd23, hd24, hd34, Ne.symm hd12, Ne.symm hd13,
        Ne.symm hd14, Ne.symm hd23, Ne.symm hd24, Ne.symm hd34]
  · intro m hm
    unfold simple_ats_checks at hm
    by_cases hs : s = ""
    · rw [if_pos hs] at hm
      simp at hm
    · rw [if_neg hs] at hm
      rcases List.mem_append.mp hm with hm' | hm4
      · rcases List.mem_append.mp hm' with hm'' | hm3
        · rcases List.mem_append.mp hm'' with hm1 | hm2
          · left
            by_cases h1 : checkColumns s <;> simp [h1] at hm1 <;> simp [hm1]
          · right; left
            by_cases h2 : checkImages s <;> simp [h2] at hm2 <;> simp [hm2]
        · right; right; left
          by_cases h3 : checkBullets s <;> simp [h3] at hm3 <;> simp [hm3]
      · right; right; right
        by_cases h4 : checkShort s <;> simp [h4] at hm4 <;> simp [hm4]

/-- C9 witness: at `"hello"` only the word-count check triggers. -/
theorem c9_witness :
    ("hello" : String) ≠ "" ∧
      (simple_ats_checks "hello").count msg_short =
        (if checkShort "hello" then 1 else 0) :=
  ⟨by decide, ((c9_formatting_checks "hello").2.2.1 (by decide)).2.2.2⟩

/-! ### Counter and stable-sort facts -/

theorem mem_firstOccs {a : String} : ∀ {l : List String}, a ∈ firstOccs l ↔ a ∈ l := by
  intro l
  induction l with
  | nil => simp [firstOccs]
  | cons t ts ih =>
    unfold firstOccs
    by_cases ha : a = t
    · subst ha
      simp
    · simp only [List.mem_cons, List.mem_filter, decide_eq_true_eq]
      constructor
      · rintro (rfl | ⟨h, _⟩)
        · exact Or.inl rfl
        · exact Or.inr (ih.mp h)
      · rintro (rfl | h)
        · exact Or.inl rfl
        · exact Or.inr ⟨ih.mpr h, ha⟩

theorem firstOccs_nodup : ∀ (l : List String), (firstOccs l).Nodup := by
  intro l
  induction l with
  | nil => simp [firstOccs]
  | cons t ts ih =>
    unfold firstOccs
    rw [List.nodup_cons]
    refine ⟨?_, ih.filter _⟩
    intro hmem
    have := (List.mem_filter.mp hmem).2
    simp at this

theorem firstIdx_cons_self (a : String) (l : List String) : firstIdx a (a :: l) = 0 := by
  simp [firstIdx]

theorem firstIdx_cons_ne {a b : String} (h : a ≠ b) (l : List String) :
    firstIdx a (b :: l) = 1 + firstIdx a l := by
  simp [firstIdx, h]

theorem firstOccs_pairwise :
    ∀ (l : List String), (firstOccs l).Pairwise (fun a b => firstIdx a l < firstIdx b l) := by
  intro l
  induction l with
  | nil => simp [firstOccs]
  | cons t ts ih =>
    unfold firstOccs
    rw [List.pairwise_cons]
    constructor
    · intro b hb
      have hbne : b ≠ t := by
        have := (List.mem_filter.mp hb).2
        simpa using this
      rw [firstIdx_cons_self, firstIdx_cons_ne hbne]
      omega
    · have hfil := ih.filter (fun u => decide (u ≠ t))
      apply hfil.imp_of_mem
      intro a b ha hb hab
      have hane : a ≠ t := by simpa using (List.mem_filter.mp ha).2
      have hbne : b ≠ t := by simpa using (List.mem_filter.mp hb).2
      rw [firstIdx_cons_ne hane, firstIdx_cons_ne hbne]
      omega

theorem counterItems_mem {l : List String} {p : String × Nat}
    (h : p ∈ counterItems l) : p.1 ∈ l ∧ p.2 = l.count p.1 := by
  unfold counterItems at h
  obtain ⟨k, hk, rfl⟩ := List.mem_map.mp h
  exact ⟨mem_firstOccs.mp hk, rfl⟩

theorem counterItems_keys (l : List String) :
    (counterItems l).map Prod.fst = firstOccs l := by
  unfold counterItems
  rw [List.map_map]
  have hid : Prod.fst ∘ (fun k => (k, l.count k)) = id := funext fun k => rfl
  rw [hid, List.map_id]

theorem counterItems_pairwise (l : List String) :
    (counterItems l).Pairwise (fun x y => firstIdx x.1 l < firstIdx y.1 l) := by
  unfold counterItems
  rw [List.pairwise_map]
  exact firstOccs_pairwise l

theorem insertCD_perm (x : String × Nat) :
    ∀ (l : List (String × Nat)), List.Perm (insertCD x l) (x :: l) := by
  intro l
  induction l with
  | nil => exact List.Perm.refl _
  | cons y ys ih =>
    unfold insertCD
    by_cases hc : x.2 < y.2
    · rw [if_pos hc]
      exact (ih.cons y).trans (List.Perm.swap x y ys)
    · rw [if_neg hc]

theorem sortCD_perm : ∀ (l : List (String × Nat)), List.Perm (sortCD l) l := by
  intro l
  induction l with
  | nil => exact List.Perm.refl _
  | cons x xs ih =>
    unfold sortCD
    exact (insertCD_perm x (sortCD xs)).trans (ih.cons x)

theorem insertCD_pairwise {F : (String × Nat) → (String × Nat) → Prop}
    {x : String × Nat} :
    ∀ {l : List (String × Nat)},
      l.Pairwise (fun a b => b.2 < a.2 ∨ (a.2 = b.2 ∧ F a b)) →
      (∀ y ∈ l, F x y) →
      (insertCD x l).Pairwise (fun a b => b.2 < a.2 ∨ (a.2 = b.2 ∧ F a b)) := by
  intro l
  induction l with
  | nil =>
    intro _ _
    simp [insertCD]
  | cons y ys ih =>
    intro hl hx
    rw [List.pairwise_cons] at hl
    obtain ⟨hy, hys⟩ := hl
    unfold insertCD
    by_cases hc : x.2 < y.2
    · rw [if_pos hc]
      rw [List.pairwise_cons]
      refine ⟨?_, ih hys (fun z hz => hx z (List.mem_cons_of_mem _ hz))⟩
      intro z hz
      have hz' : z ∈ x :: ys := (insertCD_perm x ys).mem_iff.mp hz
      rcases List.mem_cons.mp hz' with rfl | hz''
      · exact Or.inl hc
      · exact hy z hz''
    · rw [if_neg hc]
      have hyx : y.2 ≤ x.2 := Nat.le_of_not_lt hc
      rw [List.pairwise_cons]
      constructor
      · intro z hz
        rcases List.mem_cons.mp hz with rfl | hz'
        · by_cases heq : x.2 = z.2
          · exact Or.inr ⟨heq, hx z (List.mem_cons_self _ _)⟩
          · exact Or.inl (lt_of_le_of_ne hyx (fun h => heq h.symm))
        · by_cases heq : x.2 = z.2
          · exact Or.inr ⟨heq, hx z (List.mem_cons_of_mem _ hz')⟩
          · left
            rcases hy z hz' with h | ⟨h, _⟩
            · exact lt_of_lt_of_le h hyx
            · exact lt_of_le_of_ne (h ▸ hyx) (fun he => heq he.symm)
      · exact List.pairwise_cons.mpr ⟨hy, hys⟩

theorem sortCD_pairwise {F : (String × Nat) → (String × Nat) → Prop} :
    ∀ {l : List (String × Nat)}, l.Pairwise F →
      (sortCD l).Pairwise (fun a b => b.2 < a.2 ∨ (a.2 = b.2 ∧ F a b)) := by
  intro l
  induction l with
  | nil => intro _; simp [sortCD]
  | cons x xs ih =>
    intro hl
    rw [List.pairwise_cons] at hl
    obtain ⟨hx, hxs⟩ := hl
    unfold sortCD
    exact insertCD_pairwise (ih hxs)
      (fun y hy => hx y ((sortCD_perm xs).mem_iff.mp hy))

/-! ### Claim theorems: keyword comparator (C3, C4) -/

/-- C4: within the `missing` list of the keyword comparison
(`missing_simple` of `categorize_and_compare`), tokens appear in strictly
descending job-description frequency order except that equal frequencies are
ordered by first occurrence in the job description's token sequence: for any
token `a` before token `b`, either `jd_freq b < jd_freq a`, or the
frequencies are equal and `a` first occurs before `b`. -/
theorem c4_missing_ordering (resume jd : String) (n : Nat) :
    (missing_simple resume jd n).Pairwise (fun a b =>
      jd_freq jd b < jd_freq jd a ∨
      (jd_freq jd a = jd_freq jd b ∧
        firstIdx a (tokenize jd) < firstIdx b (tokenize jd))) := by
  have h1 : (sortCD (counterItems (tokenize jd))).Pairwise
      (fun x y => y.2 < x.2 ∨
        (x.2 = y.2 ∧ firstIdx x.1 (tokenize jd) < firstIdx y.1 (tokenize jd))) :=
    sortCD_pairwise (counterItems_pairwise (tokenize jd))
  have h2 := List.Pairwise.sublist (List.take_sublist n _) h1
  have h3 : ((sortCD (counterItems (tokenize jd))).take n).Pairwise
      (fun x y => (tokenize jd).count y.1 < (tokenize jd).count x.1 ∨
        ((tokenize jd).count x.1 = (tokenize jd).count y.1 ∧
          firstIdx x.1 (tokenize jd) < firstIdx y.1 (tokenize jd))) := by
    apply h2.imp_of_mem
    intro x y hx hy hxy
    have hcx := (counterItems_mem
      ((sortCD_perm (counterItems (tokenize jd))).mem_iff.mp
        (List.take_subset _ _ hx))).2
    have hcy := (counterItems_mem
      ((sortCD_perm (counterItems (tokenize jd))).mem_iff.mp
        (List.take_subset _ _ hy))).2
    rw [← hcx, ← hcy]
    exact hxy
  have h4 : (extract_top_terms jd n).Pairwise (fun a b =>
      (tokenize jd).count b < (tokenize jd).count a ∨
      ((tokenize jd).count a = (tokenize jd).count b ∧
        firstIdx a (tokenize jd) < firstIdx b (tokenize jd))) := by
    unfold extract_top_terms most_common
    rw [List.pairwise_map]
    exact h3
  unfold missing_simple jd_freq
  exact h4.filter _

/-- C4 witness: concrete check of the ordering on a JD with a frequency tie:
the `missing` list for an empty resume is the JD's tokens with `sql` (count 2)
first, then `java` and `hibernate` (count 1 each) in first-seen order. -/
theorem c4_witness :
    (missing_simple "" "java sql hibernate sql" 10).Pairwise (fun a b =>
      jd_freq "java sql hibernate sql" b < jd_freq "java sql hibernate sql" a ∨
      (jd_freq "java sql hibernate sql" a = jd_freq "java sql hibernate sql" b ∧
        firstIdx a (tokenize "java sql hibernate sql") <
          firstIdx b (tokenize "java sql hibernate sql"))) :=
  c4_missing_ordering "" "java sql hibernate sql" 10

/-- C3: for every resume, JD and positive `topN`, the comparator's `matched`
and `missing` lists are disjoint; their union is exactly the selected
top-`topN` JD token list; that selection consists of distinct JD tokens, has
length `min topN (number of distinct JD tokens)`, every selected token's JD
frequency is at least that of every unselected JD token, and when `topN` is
at least the number of distinct JD tokens the selection is exactly the set of
all JD tokens. -/
theorem c3_partition (resume jd : String) (n : Nat) (hn : 0 < n) :
    (∀ t, ¬(t ∈ matched_simple resume jd n ∧ t ∈ missing_simple resume jd n)) ∧
    (∀ t, t ∈ extract_top_terms jd n ↔
      (t ∈ matched_simple resume jd n ∨ t ∈ missing_simple resume jd n)) ∧
    (extract_top_terms jd n).Nodup ∧
    (∀ t ∈ extract_top_terms jd n, t ∈ tokenize jd) ∧
    (extract_top_terms jd n).length = min n (firstOccs (tokenize jd)).length ∧
    (∀ s ∈ extract_top_terms jd n, ∀ t ∈ tokenize jd,
      t ∉ extract_top_terms jd n → (tokenize jd).count t ≤ (tokenize jd).count s) ∧
    ((firstOccs (tokenize jd)).length ≤ n →
      ∀ t, t ∈ extract_top_terms jd n ↔ t ∈ tokenize jd) := by
  have hmapfst : List.Perm ((sortCD (counterItems (tokenize jd))).map Prod.fst)
      (firstOccs (tokenize jd)) := by
    rw [← counterItems_keys (tokenize jd)]
    exact (sortCD_perm (counterItems (tokenize jd))).map Prod.fst
  have hext : extract_top_terms jd n =
      ((sortCD (counterItems (tokenize jd))).map Prod.fst).take n := by
    unfold extract_top_terms most_common
    rw [List.map_take]
  refine ⟨?_, ?_, ?_, ?_, ?_, ?_, ?_⟩
  · intro t ⟨h1, h2⟩
    have hp1 := (List.mem_filter.mp h1).2
    have hp2 := (List.mem_filter.mp h2).2
    rw [Bool.not_eq_true'] at hp2
    rw [hp1] at hp2
    exact Bool.noConfusion hp2
  · intro t
    constructor
    · intro ht
      by_cases hc : (tokenize resume).contains t = true
      · exact Or.inl (List.mem_filter.mpr ⟨ht, hc⟩)
      · refine Or.inr (List.mem_filter.mpr ⟨ht, ?_⟩)
        simp only [Bool.not_eq_true'] 
        exact Bool.eq_false_iff.mpr hc
    · rintro (h | h)
      · exact (List.mem_filter.mp h).1
      · exact (List.mem_filter.mp h).1
  · rw [hext]
    exact (hmapfst.nodup_iff.mpr (firstOccs_nodup (tokenize jd))).sublist
      (List.take_sublist _ _)
  · intro t ht
    rw [hext] at ht
    have ht' := List.take_subset _ _ ht
    have := hmapfst.mem_iff.mp ht'
    exact mem_firstOccs.mp this
  · rw [hext, List.length_take, List.length_map,
      (sortCD_perm (counterItems (tokenize jd))).length_eq]
    unfold counterItems
    rw [List.length_map]
  · intro s hs t htl htns
    obtain ⟨ps, hps, hpse⟩ := by
      rw [hext, ← List.map_take] at hs
      exact List.mem_map.mp hs
    have hR := sortCD_pairwise (F := fun x y =>
        firstIdx x.1 (tokenize jd) < firstIdx y.1 (tokenize jd))
      (counterItems_pairwise (tokenize jd))
    rw [← List.take_append_drop n (sortCD (counterItems (tokenize jd)))] at hR
    have hAB := (List.pairwise_append.mp hR).2.2
    have hpt : (t, (tokenize jd).count t) ∈ counterItems (tokenize jd) := by
      unfold counterItems
      exact List.mem_map.mpr ⟨t, mem_firstOccs.mpr htl, rfl⟩
    have hptX : (t, (tokenize jd).count t) ∈ sortCD (counterItems (tokenize jd)) :=
      (sortCD_perm (counterItems (tokenize jd))).mem_iff.mpr hpt
    rw [← List.take_append_drop n (sortCD (counterItems (tokenize jd)))] at hptX
    rcases List.mem_append.mp hptX with hin | hin
    · exfalso
      apply htns
      rw [hext, ← List.map_take]
      exact List.mem_map.mpr ⟨(t, (tokenize jd).count t), hin, rfl⟩
    · have hrel := hAB ps hps (t, (tokenize jd).count t) hin
      have hcs := (counterItems_mem
        ((sortCD_perm (counterItems (tokenize jd))).mem_iff.mp
          (List.take_subset _ _ hps))).2
      rcases hrel with h | ⟨h, _⟩
      · have : (tokenize jd).count t < ps.2 := h
        rw [hcs, hpse] at this
        exact le_of_lt this
      · have : ps.2 = (tokenize jd).count t := h
        rw [hcs, hpse] at this
        exact le_of_eq this.symm
  · intro hlen t
    have hXlen : (sortCD (counterItems (tokenize jd))).length ≤ n := by
      rw [(sortCD_perm (counterItems (tokenize jd))).length_eq]
      unfold counterItems
      rwa [List.length_map]
    rw [hext, List.take_of_length_le (by rwa [List.length_map])]
    rw [hmapfst.mem_iff, mem_firstOccs]

/-- C3 witness: the partition property applied at a concrete resume/JD pair
with `topN = 10`. -/
theorem c3_witness :
    0 < 10 ∧
      (∀ t, t ∈ extract_top_terms "java sql sql" 10 ↔
        (t ∈ matched_simple "java" "java sql sql" 10 ∨
          t ∈ missing_simple "java" "java sql sql" 10)) :=
  ⟨by decide, (c3_partition "java" "java sql sql" 10 (by decide)).2.1⟩

/-! ### Rounding and norm facts -/

theorem roundHalfEven_cases (y : ℝ) :
    roundHalfEven y = ⌊y⌋ ∨ roundHalfEven y = ⌊y⌋ + 1 := by
  unfold roundHalfEven
  split_ifs <;> simp

theorem roundHalfEven_nonneg {y : ℝ} (hy : 0 ≤ y) : 0 ≤ roundHalfEven y := by
  have h0 : (0 : ℤ) ≤ ⌊y⌋ := Int.floor_nonneg.mpr hy
  rcases roundHalfEven_cases y with h | h <;> omega

theorem roundHalfEven_le {y : ℝ} {c : ℤ} (hy : y ≤ c) : roundHalfEven y ≤ c := by
  have hfl : ⌊y⌋ ≤ c := by
    have := Int.floor_le_floor hy
    rwa [Int.floor_intCast] at this
  unfold roundHalfEven
  split_ifs with h1 h2 h3
  · exact hfl
  · rcases lt_or_eq_of_le hfl with h | h
    · omega
    · exfalso
      have hle : Int.fract y ≤ 0 := by
        have h1' : y - ⌊y⌋ ≤ 0 := by
          rw [h]
          push_cast
          linarith
        have hfr : Int.fract y = y - ⌊y⌋ := rfl
        rw [hfr]
        exact h1'
      linarith
  · exact hfl
  · rcases lt_or_eq_of_le hfl with h | h
    · omega
    · exfalso
      have hle : Int.fract y ≤ 0 := by
        have h1' : y - ⌊y⌋ ≤ 0 := by
          rw [h]
          push_cast
          linarith
        have hfr : Int.fract y = y - ⌊y⌋ := rfl
        rw [hfr]
        exact h1'
      have hpos : Int.fract y = 1 / 2 := le_antisymm (not_lt.mp h2) (not_lt.mp h1)
      rw [hpos] at hle
      norm_num at hle

theorem roundHalfEven_intCast (m : ℤ) : roundHalfEven (m : ℝ) = m := by
  unfold roundHalfEven
  rw [Int.fract_intCast, Int.floor_intCast]
  norm_num

theorem round2_bounds {x : ℝ} (h0 : 0 ≤ x) (h1 : x ≤ 100) :
    0 ≤ round2 x ∧ round2 x ≤ 100 := by
  unfold round2
  constructor
  · apply div_nonneg _ (by norm_num)
    exact_mod_cast roundHalfEven_nonneg (by linarith)
  · rw [div_le_iff (by norm_num : (0:ℝ) < 100)]
    have hle : roundHalfEven (x * 100) ≤ (10000 : ℤ) := by
      apply roundHalfEven_le
      push_cast
      linarith
    calc ((roundHalfEven (x * 100) : ℤ) : ℝ) ≤ ((10000 : ℤ) : ℝ) := by exact_mod_cast hle
      _ = 100 * 100 := by norm_num

theorem round2_hundred : round2 100 = 100 := by
  unfold round2
  have h : (100 : ℝ) * 100 = ((10000 : ℤ) : ℝ) := by norm_num
  rw [h, roundHalfEven_intCast]
  norm_num

theorem sqNorm_nonneg (toks : List String) (V : Finset String) : 0 ≤ sqNorm toks V :=
  Finset.sum_nonneg (fun w _ => sq_nonneg _)

theorem build_vec_nonneg (toks : List String) (V : Finset String) (w : String) :
    0 ≤ build_vec toks V w :=
  div_nonneg (Nat.cast_nonneg _) (Real.sqrt_nonneg _)

theorem sqNorm_pos {toks : List String} {V : Finset String}
    (h : ∃ w ∈ V, toks.count w ≠ 0) : 0 < sqNorm toks V := by
  obtain ⟨w, hw, hc⟩ := h
  apply Finset.sum_pos' (fun v _ => sq_nonneg _)
  refine ⟨w, hw, ?_⟩
  have : (0 : ℝ) < (toks.count w : ℝ) := by exact_mod_cast Nat.pos_of_ne_zero hc
  positivity

theorem sum_sq_build_vec_eq_one {toks : List String} {V : Finset String}
    (h : sqNorm toks V ≠ 0) :
    ∑ w in V, build_vec toks V w ^ 2 = 1 := by
  unfold build_vec l2norm
  have hpos : 0 ≤ sqNorm toks V := sqNorm_nonneg toks V
  have hsq : Real.sqrt (sqNorm toks V) ^ 2 = sqNorm toks V := Real.sq_sqrt hpos
  have : ∀ w ∈ V, ((toks.count w : ℝ) / Real.sqrt (sqNorm toks V)) ^ 2 =
      (toks.count w : ℝ) ^ 2 / sqNorm toks V := by
    intro w _
    rw [div_pow, hsq]
  rw [Finset.sum_congr rfl this, ← Finset.sum_div]
  exact div_self h

theorem build_vec_of_sqNorm_zero {toks : List String} {V : Finset String}
    (h : sqNorm toks V = 0) (w : String) (hw : w ∈ V) :
    build_vec toks V w = 0 := by
  have hz : ∀ v ∈ V, ((toks.count v : ℝ)) ^ 2 = 0 :=
    (Finset.sum_eq_zero_iff_of_nonneg (fun v _ => sq_nonneg _)).mp h w |> fun _ => 
      (Finset.sum_eq_zero_iff_of_nonneg (fun v _ => sq_nonneg _)).mp h
  have hc : ((toks.count w : ℝ)) ^ 2 = 0 := hz w hw
  have : (toks.count w : ℝ) = 0 := by
    exact pow_eq_zero_iff (by norm_num) |>.mp hc
  unfold build_vec
  rw [this, zero_div]

theorem sum_sq_build_vec_le_one (toks : List String) (V : Finset String) :
    ∑ w in V, build_vec toks V w ^ 2 ≤ 1 := by
  by_cases h : sqNorm toks V = 0
  · have : ∀ w ∈ V, build_vec toks V w ^ 2 = 0 := by
      intro w hw
      rw [build_vec_of_sqNorm_zero h w hw]
      norm_num
    rw [Finset.sum_congr rfl this]
    simp
  · rw [sum_sq_build_vec_eq_one h]

theorem sum_mul_build_vec_bounds (r j : List String) (V : Finset String) :
    0 ≤ (∑ w in V, build_vec r V w * build_vec j V w) ∧
      (∑ w in V, build_vec r V w * build_vec j V w) ≤ 1 := by
  constructor
  · exact Finset.sum_nonneg
      (fun w _ => mul_nonneg (build_vec_nonneg r V w) (build_vec_nonneg j V w))
  · have hstep : (∑ w in V, build_vec r V w * build_vec j V w) ≤
        ∑ w in V, (build_vec r V w ^ 2 + build_vec j V w ^ 2) / 2 := by
      apply Finset.sum_le_sum
      intro w _
      nlinarith [two_mul_le_add_sq (build_vec r V w) (build_vec j V w)]
    have hsplit : ∑ w in V, (build_vec r V w ^ 2 + build_vec j V w ^ 2) / 2 =
        ((∑ w in V, build_vec r V w ^ 2) + ∑ w in V, build_vec j V w ^ 2) / 2 := by
      rw [← Finset.sum_div, Finset.sum_add_distrib]
    have h1 := sum_sq_build_vec_le_one r V
    have h2 := sum_sq_build_vec_le_one j V
    rw [hsplit] at hstep
    linarith

/-! ### Claim theorems: similarity scorer (C1, C2, C5, C10) -/

/-- C1: for all strings the similarity score lies in `[0, 100]`, and for
every string whose token sequence is non-empty the self-similarity is exactly
the maximum 100 (the idealized, exact-arithmetic value of the documented
"effectively 100 up to two-decimal rounding"). -/
theorem c1_similarity_bounds :
    (∀ a b : String, 0 ≤ compute_similarity_score a b ∧
      compute_similarity_score a b ≤ 100) ∧
    (∀ a : String, tokenize a ≠ [] → compute_similarity_score a a = 100) := by
  constructor
  · intro a b
    unfold compute_similarity_score
    split_ifs with h1 h2 h3
    · exact ⟨le_refl 0, by norm_num⟩
    · exact ⟨le_refl 0, by norm_num⟩
    · exact ⟨le_refl 0, by norm_num⟩
    · obtain ⟨hlo, hhi⟩ := sum_mul_build_vec_bounds (tokenize a) (tokenize b)
        ((tokenize a ++ tokenize b).toFinset)
      exact round2_bounds (by nlinarith) (by nlinarith)
  · intro a ha
    have hane : a ≠ "" := fun he => ha (he ▸ rfl)
    obtain ⟨t, ts, hts⟩ := List.exists_cons_of_ne_nil ha
    have htmem : t ∈ (tokenize a ++ tokenize a).toFinset := by
      rw [List.mem_toFinset, List.mem_append]
      exact Or.inl (hts ▸ List.mem_cons_self _ _)
    have hVne : (tokenize a ++ tokenize a).toFinset ≠ ∅ :=
      Finset.ne_empty_of_mem htmem
    have hcount : (tokenize a).count t ≠ 0 := by
      rw [hts]
      simp [List.count_cons_self]
    have hsq : sqNorm (tokenize a) ((tokenize a ++ tokenize a).toFinset) ≠ 0 :=
      ne_of_gt (sqNorm_pos ⟨t, htmem, hcount⟩)
    have hone : ∑ w in (tokenize a ++ tokenize a).toFinset,
        build_vec (tokenize a) ((tokenize a ++ tokenize a).toFinset) w ^ 2 = 1 :=
      sum_sq_build_vec_eq_one hsq
    unfold compute_similarity_score
    rw [if_neg (by simp [hane]), if_neg hVne, hone]
    rw [if_neg (by rw [Real.sqrt_one]; norm_num)]
    have hprod : (∑ w in (tokenize a ++ tokenize a).toFinset,
        build_vec (tokenize a) ((tokenize a ++ tokenize a).toFinset) w *
          build_vec (tokenize a) ((tokenize a ++ tokenize a).toFinset) w) = 1 := by
      rw [← hone]
      exact Finset.sum_congr rfl (fun w _ => (sq (build_vec _ _ w)).symm ▸ by ring)
    rw [hprod, one_mul, round2_hundred]

/-- C1 witness: self-similarity at the concrete non-degenerate text `"java"`. -/
theorem c1_witness :
    tokenize "java" ≠ [] ∧ compute_similarity_score "java" "java" = 100 :=
  ⟨by decide, c1_similarity_bounds.2 "java" (by decide)⟩

/-- C2: the similarity score is a total function (never raises), and returns
0 whenever either argument is empty or whitespace-only after trimming
(`pyStrip` is Python's `str.strip`), for every value of the other argument. -/
theorem c2_empty_input_zero (a b : String)
    (h : pyStrip a = "" ∨ pyStrip b = "") :
    compute_similarity_score a b = 0 := by
  unfold compute_similarity_score
  split_ifs with h1 h2 h3
  · rfl
  · rfl
  · rfl
  · exfalso
    apply h3
    rcases h with hs | hs
    · have hta : tokenize a = [] := tokenize_space (pyStrip_all_space hs)
      have hz : ∀ w ∈ (tokenize a ++ tokenize b).toFinset,
          build_vec (tokenize a) ((tokenize a ++ tokenize b).toFinset) w ^ 2 = 0 := by
        intro w _
        unfold build_vec
        rw [hta]
        simp
      rw [Finset.sum_eq_zero hz, Real.sqrt_zero, zero_mul]
    · have htb : tokenize b = [] := tokenize_space (pyStrip_all_space hs)
      have hz : ∀ w ∈ (tokenize a ++ tokenize b).toFinset,
          build_vec (tokenize b) ((tokenize a ++ tokenize b).toFinset) w ^ 2 = 0 := by
        intro w _
        unfold build_vec
        rw [htb]
        simp
      rw [Finset.sum_eq_zero hz, Real.sqrt_zero, mul_zero]

/-- C2 witness: the empty resume against a non-empty JD scores 0. -/
theorem c2_witness :
    (pyStrip "" = "" ∨ pyStrip "anything" = "") ∧
      compute_similarity_score "" "anything" = 0 :=
  ⟨Or.inl (by decide), c2_empty_input_zero "" "anything" (Or.inl (by decide))⟩

/-- C10: the similarity score is symmetric in its two arguments. -/
theorem c10_symmetry (a b : String) :
    compute_similarity_score a b = compute_similarity_score b a := by
  by_cases ha : a = ""
  · unfold compute_similarity_score
    simp [ha]
  · by_cases hb : b = ""
    · unfold compute_similarity_score
      simp [hb]
    · unfold compute_similarity_score
      rw [if_neg (show ¬(a = "" ∨ b = "") from by tauto),
        if_neg (show ¬(b = "" ∨ a = "") from by tauto)]
      have hV : (tokenize a ++ tokenize b).toFinset =
          (tokenize b ++ tokenize a).toFinset := by
        rw [List.toFinset_append, List.toFinset_append, Finset.union_comm]
      rw [hV]
      have hd : Real.sqrt (∑ w in (tokenize b ++ tokenize a).toFinset,
            build_vec (tokenize a) ((tokenize b ++ tokenize a).toFinset) w ^ 2) *
          Real.sqrt (∑ w in (tokenize b ++ tokenize a).toFinset,
            build_vec (tokenize b) ((tokenize b ++ tokenize a).toFinset) w ^ 2) =
          Real.sqrt (∑ w in (tokenize b ++ tokenize a).toFinset,
            build_vec (tokenize b) ((tokenize b ++ tokenize a).toFinset) w ^ 2) *
          Real.sqrt (∑ w in (tokenize b ++ tokenize a).toFinset,
            build_vec (tokenize a) ((tokenize b ++ tokenize a).toFinset) w ^ 2) :=
        mul_comm _ _
      have hs : (∑ w in (tokenize b ++ tokenize a).toFinset,
            build_vec (tokenize a) ((tokenize b ++ tokenize a).toFinset) w *
              build_vec (tokenize b) ((tokenize b ++ tokenize a).toFinset) w) =
          ∑ w in (tokenize b ++ tokenize a).toFinset,
            build_vec (tokenize b) ((tokenize b ++ tokenize a).toFinset) w *
              build_vec (tokenize a) ((tokenize b ++ tokenize a).toFinset) w :=
        Finset.sum_congr rfl (fun w _ => mul_comm _ _)
      rw [hd, hs]

/-- C5: for texts that both tokenize non-emptily, the score equals the
specification's formula — the dot product of the two L2-normalized
term-frequency vectors over the union vocabulary (the cosine similarity,
which lies in `[0, 1]`), multiplied by 100 and rounded to two decimals. -/
theorem c5_cosine_formula (a b : String)
    (ha : tokenize a ≠ []) (hb : tokenize b ≠ []) :
    compute_similarity_score a b =
      round2 (cosine_spec (tokenize a) (tokenize b) * 100) ∧
    0 ≤ cosine_spec (tokenize a) (tokenize b) ∧
    cosine_spec (tokenize a) (tokenize b) ≤ 1 := by
  have hane : a ≠ "" := fun he => ha (he ▸ rfl)
  have hbne : b ≠ "" := fun he => hb (he ▸ rfl)
  obtain ⟨t, ts, hts⟩ := List.exists_cons_of_ne_nil ha
  obtain ⟨u, us, hus⟩ := List.exists_cons_of_ne_nil hb
  have htmem : t ∈ (tokenize a ++ tokenize b).toFinset := by
    rw [List.mem_toFinset, List.mem_append]
    exact Or.inl (hts ▸ List.mem_cons_self _ _)
  have humem : u ∈ (tokenize a ++ tokenize b).toFinset := by
    rw [List.mem_toFinset, List.mem_append]
    exact Or.inr (hus ▸ List.mem_cons_self _ _)
  have hVne : (tokenize a ++ tokenize b).toFinset ≠ ∅ :=
    Finset.ne_empty_of_mem htmem
  have hsqa : sqNorm (tokenize a) ((tokenize a ++ tokenize b).toFinset) ≠ 0 := by
    refine ne_of_gt (sqNorm_pos ⟨t, htmem, ?_⟩)
    rw [hts]
    simp [List.count_cons_self]
  have hsqb : sqNorm (tokenize b) ((tokenize a ++ tokenize b).toFinset) ≠ 0 := by
    refine ne_of_gt (sqNorm_pos ⟨u, humem, ?_⟩)
    rw [hus]
    simp [List.count_cons_self]
  have hcs_eq : cosine_spec (tokenize a) (tokenize b) =
      ∑ w in (tokenize a ++ tokenize b).toFinset,
        build_vec (tokenize a) ((tokenize a ++ tokenize b).toFinset) w *
          build_vec (tokenize b) ((tokenize a ++ tokenize b).toFinset) w := rfl
  refine ⟨?_, ?_, ?_⟩
  · unfold compute_similarity_score
    rw [if_neg (by tauto), if_neg hVne,
      if_neg (by
        rw [sum_sq_build_vec_eq_one hsqa, sum_sq_build_vec_eq_one hsqb,
          Real.sqrt_one, mul_one]
        norm_num),
      hcs_eq]
  · rw [hcs_eq]
    exact (sum_mul_build_vec_bounds _ _ _).1
  · rw [hcs_eq]
    exact (sum_mul_build_vec_bounds _ _ _).2

/-- C5 witness: the formula equality applied at concrete distinct texts. -/
theorem c5_witness :
    (tokenize "java sql" ≠ [] ∧ tokenize "java hibernate" ≠ []) ∧
      compute_similarity_score "java sql" "java hibernate" =
        round2 (cosine_spec (tokenize "java sql") (tokenize "java hibernate") * 100) :=
  ⟨⟨by decide, by decide⟩,
    (c5_cosine_formula "java sql" "java hibernate" (by decide) (by decide)).1⟩
